import Mathlib

/-!
Verification of the session/branch/thought bookkeeping engine of the
sequential-thinking MCP server.

The definitions below are a shallow embedding of the TypeScript sources:
  * `ThinkingSessionManager` (session manager module): `getOrCreateSession`,
    `addThought`, `createBranch`, `getProgress`, `getSummary`,
    `updateSessionStatus`, `listSessions`, `switchBranch`,
    `inferThoughtType`, `generateTitle`, `generateQuickSummary`;
  * the `complete_thinking_session` tool handler of the serverless route
    (`completeThinkingSession` below).

Modelling conventions:
  * JS `Date` timestamps are `Nat` clock values passed explicitly to every
    operation; a run of operations uses non-decreasing clock values.
  * `uuidv4()` is modelled by a fresh-name generator threaded through the
    manager state (`uuid n` below); each call advances the counter, so
    generated ids are pairwise distinct, matching the ucrash-free uuid
    assumption of the code.
  * The JS `Map` is an insertion-ordered association list; `setPairs`
    reproduces `Map.set` (update in place, or append a new key at the end).
  * In-place mutation of a session object obtained from the map is modelled
    by writing the new session value back under the key the object lives at
    (`getOrCreateSession` returns that key alongside the session).
  * JS truthiness on optional strings (`input.branchId || ...`,
    `if (input.newBranchName)`, `if (finalConclusion)`) treats the empty
    string like `undefined`; `jsOrStr` / the explicit `= ""` tests below
    reproduce that.
  * `Array.prototype.sort` is stable (ES2019); `sortByTs` below is the
    stable ascending insertion sort, extensionally equal to any stable sort
    with the comparator `(a, b) => a.timestamp - b.timestamp`.
-/

inductive ThoughtType where
  | observation
  | analysis
  | hypothesis
  | verification
  | refinement
  | conclusion
  | question
  | insight
  | reflection
deriving DecidableEq, Repr

inductive SessionStatus where
  | active
  | paused
  | completed
  | abandoned
deriving DecidableEq, Repr

structure ThoughtStep where
  id : String
  stepNumber : Nat
  thought : String
  thoughtType : ThoughtType
  isRevision : Bool
  revisesStep : Option Nat
  branchId : String
  branchFromStep : Option Nat
  confidence : Option Rat
  tags : Option (List String)
  timestamp : Nat
deriving DecidableEq, Repr

structure ThinkingBranch where
  id : String
  name : String
  parentBranchId : Option String
  branchFromStepId : Option String
  createdAt : Nat
  description : Option String
deriving DecidableEq, Repr

structure ThinkingSession where
  id : String
  title : String
  problem : String
  thoughts : List ThoughtStep
  branches : List ThinkingBranch
  activeBranchId : String
  createdAt : Nat
  updatedAt : Nat
  status : SessionStatus
deriving DecidableEq, Repr

structure ThinkingProgress where
  sessionId : String
  totalSteps : Nat
  currentStep : Nat
  branches : Nat
  activeBranch : String
  hasMoreThoughts : Bool
  summary : Option String
deriving DecidableEq, Repr

structure AddThoughtInput where
  sessionId : Option String := none
  thought : String
  thoughtType : Option ThoughtType := none
  isRevision : Option Bool := none
  revisesStep : Option Nat := none
  branchId : Option String := none
  branchFromStep : Option Nat := none
  newBranchName : Option String := none
  confidence : Option Rat := none
  tags : Option (List String) := none
  nextThoughtNeeded : Bool
deriving DecidableEq, Repr

structure AddThoughtResult where
  sessionId : String
  stepNumber : Nat
  totalSteps : Nat
  activeBranch : String
  branchCount : Nat
  thoughtRecorded : String
  thoughtType : ThoughtType
  isRevision : Bool
  nextThoughtNeeded : Bool
  progress : ThinkingProgress
deriving DecidableEq, Repr

structure BranchSummary where
  id : String
  name : String
  stepCount : Nat
  thoughtTypes : ThoughtType → Nat

structure TimelineEntry where
  stepNumber : Nat
  thought : String
  type : ThoughtType
  branchName : String
  isRevision : Bool
deriving DecidableEq, Repr

structure SessionSummary where
  sessionId : String
  title : String
  problem : String
  totalSteps : Nat
  branches : List BranchSummary
  keyInsights : List String
  conclusions : List String
  status : SessionStatus
  timeline : List TimelineEntry

structure SessionListEntry where
  id : String
  title : String
  status : SessionStatus
  stepCount : Nat
deriving DecidableEq, Repr

/-- The manager's whole mutable state: the `sessions` map (insertion-ordered
association list, as a JS `Map`) plus the fresh-uuid counter. -/
structure ManagerState where
  sessions : List (String × ThinkingSession)
  counter : Nat
deriving DecidableEq, Repr

/-- Fresh id generator standing in for `uuidv4()`: the `n`-th generated id.
Distinct counters give distinct ids (they have different lengths). -/
def uuid (n : Nat) : String :=
  String.mk (List.replicate (n + 1) 'u')

/-- JS `a || b` on an optional string `a` (empty string is falsy). -/
def jsOrStr (o : Option String) (fallback : String) : String :=
  match o with
  | some s => if s = "" then fallback else s
  | none => fallback

/-- JS `Map.prototype.get` on the association list. -/
def findPairs (l : List (String × ThinkingSession)) (k : String) : Option ThinkingSession :=
  (l.find? (fun p => p.1 == k)).map (fun p => p.2)

/-- JS `Map.prototype.set` on the association list: replace the value under
an existing key in place, else append the new entry at the end. -/
def setPairs (k : String) (v : ThinkingSession) : List (String × ThinkingSession) → List (String × ThinkingSession)
  | [] => [(k, v)]
  | p :: rest => if p.1 = k then (k, v) :: rest else p :: setPairs k v rest

def findSession (st : ManagerState) (sid : String) : Option ThinkingSession :=
  findPairs st.sessions sid

/-- Boolean substring test on character lists (JS `String.prototype.includes`). -/
def listInfix (needle : List Char) : List Char → Bool
  | [] => needle.isEmpty
  | c :: rest => needle.isPrefixOf (c :: rest) || listInfix needle rest

/-- JS `haystack.includes(needle)`. -/
def containsSub (haystack needle : String) : Bool :=
  listInfix needle.data haystack.data

/-- JS `s.startsWith(pre)`. -/
def startsWithStr (s pre : String) : Bool :=
  pre.data.isPrefixOf s.data

/-- JS `s.toLowerCase()` (ASCII range, which is all the classifier needs). -/
def toLowerStr (s : String) : String :=
  String.mk (s.data.map Char.toLower)

/-- JS `s.split(' ')` on character lists: split at every separator, keeping
empty fragments (so the result is always non-empty). -/
def splitChars (sep : Char) : List Char → List (List Char)
  | [] => [[]]
  | c :: rest =>
    let r := splitChars sep rest
    if c = sep then [] :: r
    else
      match r with
      | [] => [[c]]
      | w :: ws => (c :: w) :: ws

/-- JS `parts.join(sep)`. -/
def joinSep (sep : String) : List String → String
  | [] => ""
  | [w] => w
  | w :: rest => w ++ sep ++ joinSep sep rest

/-- `ThinkingSessionManager.generateTitle`: first 6 space-separated words,
with an ellipsis if the text has more than 6. -/
def generateTitle (problem : String) : String :=
  let ws := (splitChars ' ' problem.data).map String.mk
  joinSep " " (ws.take 6) ++ (if ws.length > 6 then "..." else "")

/-- `ThinkingSessionManager.inferThoughtType`: keyword classification of a
thought's text, first matching rule wins, fallback `analysis`. -/
def inferThoughtType (thought : String) : ThoughtType :=
  let lower := toLowerStr thought
  if containsSub lower "?" || startsWithStr lower "what" || startsWithStr lower "how" || startsWithStr lower "why" then .question
  else if containsSub lower "i notice" || containsSub lower "i see" || containsSub lower "observe" then .observation
  else if containsSub lower "therefore" || containsSub lower "in conclusion" || containsSub lower "finally" then .conclusion
  else if containsSub lower "perhaps" || containsSub lower "maybe" || containsSub lower "hypothesis" then .hypothesis
  else if containsSub lower "verify" || containsSub lower "test" || containsSub lower "check" then .verification
  else if containsSub lower "insight" || containsSub lower "realize" || containsSub lower "aha" then .insight
  else if containsSub lower "refine" || containsSub lower "improve" || containsSub lower "better" then .refinement
  else if containsSub lower "reflect" || containsSub lower "thinking about" then .reflection
  else .analysis

/-- The `sessionId && this.sessions.has(sessionId)` test of
`getOrCreateSession`: the existing session to reuse, with the map key it
lives under, if a truthy id naming a known session was supplied. -/
def resolveExisting (st : ManagerState) (sessionId : Option String) :
    Option (ThinkingSession × String) :=
  match sessionId with
  | some sid => if sid = "" then none else (findSession st sid).map (fun s => (s, sid))
  | none => none

/-- `ThinkingSessionManager.getOrCreateSession`. Returns the session and the
map key it is stored under (which models the object aliasing of the JS
version: callers mutate the session in place, i.e. write back under this
key), plus the updated state. A falsy (absent or empty) `sessionId` makes
the engine generate one, as `const id = sessionId || uuidv4()` does. -/
def getOrCreateSession (st : ManagerState) (now : Nat) (sessionId problem : Option String) :
    (ThinkingSession × String) × ManagerState :=
  match resolveExisting st sessionId with
  | some (s, sid) => ((s, sid), st)
  | none =>
    let (id, ctr) :=
      match sessionId with
      | some sid => if sid = "" then (uuid st.counter, st.counter + 1) else (sid, st.counter)
      | none => (uuid st.counter, st.counter + 1)
    let mainBranch : ThinkingBranch :=
      { id := uuid ctr, name := "main", parentBranchId := none,
        branchFromStepId := none, createdAt := now,
        description := some "Main thinking branch" }
    let session : ThinkingSession :=
      { id := id,
        title := match problem with
          | some p => if p = "" then "New Thinking Session" else generateTitle p
          | none => "New Thinking Session",
        problem := (problem.getD ""), thoughts := [], branches := [mainBranch],
        activeBranchId := mainBranch.id, createdAt := now, updatedAt := now,
        status := .active }
    ((session, id), { sessions := setPairs id session st.sessions, counter := ctr + 1 })

/-- `ThinkingSessionManager.createBranch`: allocate a branch off the current
active branch; does not itself change `activeBranchId`. Returns the new
branch, the updated session and the advanced uuid counter. -/
def createBranch (session : ThinkingSession) (name : String) (branchFromStep : Option Nat)
    (now ctr : Nat) : ThinkingBranch × ThinkingSession × Nat :=
  let parentBranch := session.branches.find? (fun b => b.id == session.activeBranchId)
  let branchFromStepId : Option String :=
    match branchFromStep with
    | none => none
    | some n =>
      (session.thoughts.find? (fun t => t.stepNumber == n && t.branchId == session.activeBranchId)).map (fun t => t.id)
  let newBranch : ThinkingBranch :=
    { id := uuid ctr, name := name, parentBranchId := parentBranch.map (fun b => b.id),
      branchFromStepId := branchFromStepId, createdAt := now, description := none }
  (newBranch, { session with branches := session.branches ++ [newBranch] }, ctr + 1)

/-- `ThinkingSessionManager.generateQuickSummary`. -/
def generateQuickSummary (session : ThinkingSession) : String :=
  let countType := fun (ty : ThoughtType) =>
    (session.thoughts.filter (fun t => t.thoughtType == ty)).length
  let parts : List String :=
    (if countType .observation ≠ 0 then [toString (countType .observation) ++ " observations"] else []) ++
    (if countType .hypothesis ≠ 0 then [toString (countType .hypothesis) ++ " hypotheses"] else []) ++
    (if countType .insight ≠ 0 then [toString (countType .insight) ++ " insights"] else []) ++
    (if countType .conclusion ≠ 0 then [toString (countType .conclusion) ++ " conclusions"] else [])
  if parts.length > 0 then joinSep ", " parts else "Starting analysis..."

/-- `ThinkingSessionManager.getProgress` (pure read over one session). -/
def getProgress (session : ThinkingSession) : ThinkingProgress :=
  let activeBranch := session.branches.find? (fun b => b.id == session.activeBranchId)
  let branchThoughts := session.thoughts.filter (fun t => t.branchId == session.activeBranchId)
  let conclusions := session.thoughts.filter (fun t => t.thoughtType == ThoughtType.conclusion)
  { sessionId := session.id, totalSteps := session.thoughts.length,
    currentStep := branchThoughts.length, branches := session.branches.length,
    activeBranch := jsOrStr (activeBranch.map (fun b => b.name)) "main",
    hasMoreThoughts := conclusions.length == 0 || session.status == SessionStatus.active,
    summary := some (generateQuickSummary session) }

/-- `ThinkingSessionManager.addThought`, the primary write operation. -/
def addThought (st : ManagerState) (now : Nat) (input : AddThoughtInput) :
    AddThoughtResult × ManagerState :=
  let ((session0, key), st1) := getOrCreateSession st now input.sessionId (some input.thought)
  let activeBranchId0 := jsOrStr input.branchId session0.activeBranchId
  let (activeBranchId, session1, ctr1) :=
    match input.newBranchName with
    | some nm =>
      if nm = "" then (activeBranchId0, session0, st1.counter)
      else
        let (nb, s1, c1) := createBranch session0 nm input.branchFromStep now st1.counter
        (nb.id, { s1 with activeBranchId := nb.id }, c1)
    | none => (activeBranchId0, session0, st1.counter)
  let branchThoughts := session1.thoughts.filter (fun t => t.branchId == activeBranchId)
  let stepNumber := branchThoughts.length + 1
  let thoughtStep : ThoughtStep :=
    { id := uuid ctr1, stepNumber := stepNumber, thought := input.thought,
      thoughtType := input.thoughtType.getD (inferThoughtType input.thought),
      isRevision := input.isRevision.getD false, revisesStep := input.revisesStep,
      branchId := activeBranchId, branchFromStep := input.branchFromStep,
      confidence := input.confidence, tags := input.tags, timestamp := now }
  let session2 := { session1 with thoughts := session1.thoughts ++ [thoughtStep], updatedAt := now }
  let session3 :=
    if session2.thoughts.length = 1 ∧ session2.problem = "" then
      { session2 with problem := input.thought, title := generateTitle input.thought }
    else session2
  let activeBranch := session3.branches.find? (fun b => b.id == activeBranchId)
  ({ sessionId := session3.id, stepNumber := stepNumber, totalSteps := session3.thoughts.length,
     activeBranch := jsOrStr (activeBranch.map (fun b => b.name)) "main",
     branchCount := session3.branches.length, thoughtRecorded := input.thought,
     thoughtType := thoughtStep.thoughtType, isRevision := thoughtStep.isRevision,
     nextThoughtNeeded := input.nextThoughtNeeded, progress := getProgress session3 },
   { sessions := setPairs key session3 st1.sessions, counter := ctr1 + 1 })

/-- Stable insertion of a thought into a timestamp-ascending list: the
inserted element goes before the first strictly-later element and after all
earlier-or-equal ones, reproducing the stability of `Array.prototype.sort`. -/
def insertTs (t : ThoughtStep) : List ThoughtStep → List ThoughtStep
  | [] => [t]
  | u :: rest => if t.timestamp ≤ u.timestamp then t :: u :: rest else u :: insertTs t rest

/-- Stable ascending sort by timestamp: the denotation of the in-place
`session.thoughts.sort((a, b) => a.timestamp.getTime() - b.timestamp.getTime())`. -/
def sortByTs : List ThoughtStep → List ThoughtStep
  | [] => []
  | t :: rest => insertTs t (sortByTs rest)

/-- `ThinkingSessionManager.getSummary`. The JS version sorts
`session.thoughts` in place while building the timeline; the state returned
here stores the sorted list back, modelling that mutation. -/
def getSummary (st : ManagerState) (sessionId : String) :
    Option SessionSummary × ManagerState :=
  match findSession st sessionId with
  | none => (none, st)
  | some session =>
    let branchSummaries : List BranchSummary := session.branches.map (fun branch =>
      let branchThoughts := session.thoughts.filter (fun t => t.branchId == branch.id)
      { id := branch.id, name := branch.name, stepCount := branchThoughts.length,
        thoughtTypes := fun ty => (branchThoughts.filter (fun t => t.thoughtType == ty)).length })
    let sorted := sortByTs session.thoughts
    let timeline : List TimelineEntry := sorted.map (fun t =>
      { stepNumber := t.stepNumber, thought := t.thought, type := t.thoughtType,
        branchName := jsOrStr ((session.branches.find? (fun b => b.id == t.branchId)).map (fun b => b.name)) "main",
        isRevision := t.isRevision })
    let session1 := { session with thoughts := sorted }
    let summary : SessionSummary :=
      { sessionId := session.id, title := session.title, problem := session.problem,
        totalSteps := session.thoughts.length, branches := branchSummaries,
        keyInsights := (sorted.filter (fun t => t.thoughtType == ThoughtType.insight)).map (fun t => t.thought),
        conclusions := (sorted.filter (fun t => t.thoughtType == ThoughtType.conclusion)).map (fun t => t.thought),
        status := session.status, timeline := timeline }
    (some summary, { st with sessions := setPairs sessionId session1 st.sessions })

/-- `ThinkingSessionManager.updateSessionStatus`. -/
def updateSessionStatus (st : ManagerState) (now : Nat) (sessionId : String)
    (status : SessionStatus) : Bool × ManagerState :=
  match findSession st sessionId with
  | none => (false, st)
  | some session =>
    (true, { st with sessions := setPairs sessionId { session with status := status, updatedAt := now } st.sessions })

/-- `ThinkingSessionManager.listSessions` (pure read). -/
def listSessions (st : ManagerState) : List SessionListEntry :=
  st.sessions.map (fun p =>
    { id := p.2.id, title := p.2.title, status := p.2.status, stepCount := p.2.thoughts.length })

/-- `ThinkingSessionManager.switchBranch`: exact-name lookup, first match
wins; failure (unknown session or name) leaves the state untouched. -/
def switchBranch (st : ManagerState) (now : Nat) (sessionId branchName : String) :
    Bool × ManagerState :=
  match findSession st sessionId with
  | none => (false, st)
  | some session =>
    match session.branches.find? (fun b => b.name == branchName) with
    | none => (false, st)
    | some branch =>
      let session1 := { session with activeBranchId := branch.id, updatedAt := now }
      (true, { st with sessions := setPairs sessionId session1 st.sessions })

/-- The `complete_thinking_session` tool handler of the serverless route:
optionally push one `conclusion` thought (with `stepNumber` equal to the
session-wide thought count plus one, directly, not via `addThought`), then
mark the session completed. Returns `false` iff the session is unknown. -/
def completeThinkingSession (st : ManagerState) (now : Nat) (sessionId : String)
    (finalConclusion : Option String) : Bool × ManagerState :=
  match findSession st sessionId with
  | none => (false, st)
  | some session =>
    let (session1, ctr1) :=
      match finalConclusion with
      | some c =>
        if c = "" then (session, st.counter)
        else
          let finalThought : ThoughtStep :=
            { id := uuid st.counter, stepNumber := session.thoughts.length + 1,
              thought := c, thoughtType := ThoughtType.conclusion, isRevision := false,
              revisesStep := none, branchId := session.activeBranchId, branchFromStep := none,
              confidence := none, tags := none, timestamp := now }
          ({ session with thoughts := session.thoughts ++ [finalThought] }, st.counter + 1)
      | none => (session, st.counter)
    let session2 := { session1 with status := SessionStatus.completed, updatedAt := now }
    (true, { sessions := setPairs sessionId session2 st.sessions, counter := ctr1 })

/-- The engine operations a transport adapter can invoke, used to describe
the reachable states of the manager. -/
inductive EngineOp where
  | getOrCreate (sessionId problem : Option String)
  | add (input : AddThoughtInput)
  | switch (sessionId branchName : String)
  | setStatus (sessionId : String) (status : SessionStatus)
  | summary (sessionId : String)
  | complete (sessionId : String) (finalConclusion : Option String)
deriving Repr

def applyOp (st : ManagerState) (now : Nat) : EngineOp → ManagerState
  | .getOrCreate sid p => (getOrCreateSession st now sid p).2
  | .add input => (addThought st now input).2
  | .switch sid nm => (switchBranch st now sid nm).2
  | .setStatus sid s => (updateSessionStatus st now sid s).2
  | .summary sid => (getSummary st sid).2
  | .complete sid c => (completeThinkingSession st now sid c).2

def initState : ManagerState := { sessions := [], counter := 0 }

/-- Reachability of a manager state at a given clock value: the empty store
at clock 0 is reachable, and any engine operation executed at a
non-decreasing wall-clock time steps to a reachable state. -/
inductive Reachable : ManagerState → Nat → Prop
  | init : Reachable initState 0
  | step (st : ManagerState) (c now : Nat) (op : EngineOp) :
      Reachable st c → c ≤ now → Reachable (applyOp st now op) now

/-- Run a list of timed `addThought` calls in order. -/
def addRun (st : ManagerState) : List (Nat × AddThoughtInput) → ManagerState
  | [] => st
  | (now, i) :: rest => addRun (addThought st now i).2 rest

/-! ## The spec's classification rule table (for the refinement claim) -/

/-- The nine ordered classification rules exactly as the specification words
them (first match wins); used to compare the implementation against the
spec's rule table. -/
def specRules : List ((String → Bool) × ThoughtType) :=
  [(fun s => containsSub s "?" || startsWithStr s "what" || startsWithStr s "how" || startsWithStr s "why", .question),
   (fun s => containsSub s "i notice" || containsSub s "i see" || containsSub s "observe", .observation),
   (fun s => containsSub s "therefore" || containsSub s "in conclusion" || containsSub s "finally", .conclusion),
   (fun s => containsSub s "perhaps" || containsSub s "maybe" || containsSub s "hypothesis", .hypothesis),
   (fun s => containsSub s "verify" || containsSub s "test" || containsSub s "check", .verification),
   (fun s => containsSub s "insight" || containsSub s "realize" || containsSub s "aha", .insight),
   (fun s => containsSub s "refine" || containsSub s "improve" || containsSub s "better", .refinement),
   (fun s => containsSub s "reflect" || containsSub s "thinking about", .reflection)]

/-- First-match evaluation of an ordered rule list, falling back to
`analysis`. -/
def firstMatch (lower : String) : List ((String → Bool) × ThoughtType) → ThoughtType
  | [] => .analysis
  | r :: rest => if r.1 lower then r.2 else firstMatch lower rest

/-- Classification as the specification states it: lower-case the text, then
try the nine rules of the spec in order. -/
def classifySpec (text : String) : ThoughtType :=
  firstMatch (toLowerStr text) specRules

/-! ## Basic lemmas about the map and id generator -/

theorem uuid_length (n : Nat) : (uuid n).length = n + 1 := by
  simp [uuid, String.length]

theorem uuid_injective : Function.Injective uuid := by
  intro m n h
  have : (uuid m).length = (uuid n).length := by rw [h]
  simpa [uuid_length] using this

theorem findPairs_cons_pos (p : String × ThinkingSession)
    (l : List (String × ThinkingSession)) (k : String) (h : p.1 = k) :
    findPairs (p :: l) k = some p.2 := by
  simp [findPairs, List.find?_cons_of_pos, h]

theorem findPairs_cons_neg (p : String × ThinkingSession)
    (l : List (String × ThinkingSession)) (k : String) (h : p.1 ≠ k) :
    findPairs (p :: l) k = findPairs l k := by
  have hb : (p.1 == k) = false := by simp [h]
  simp [findPairs, List.find?, hb]

theorem findPairs_setPairs_self (k : String) (v : ThinkingSession)
    (l : List (String × ThinkingSession)) :
    findPairs (setPairs k v l) k = some v := by
  induction l with
  | nil => simpa [setPairs] using findPairs_cons_pos (k, v) [] k rfl
  | cons p rest ih =>
    by_cases h : p.1 = k
    · simp only [setPairs, if_pos h]
      exact findPairs_cons_pos (k, v) rest k rfl
    · simp only [setPairs, if_neg h]
      rw [findPairs_cons_neg p _ k h]
      exact ih

theorem findPairs_setPairs_ne (k k' : String) (v : ThinkingSession)
    (l : List (String × ThinkingSession)) (h : k' ≠ k) :
    findPairs (setPairs k v l) k' = findPairs l k' := by
  induction l with
  | nil =>
    simpa [setPairs, findPairs] using findPairs_cons_neg (k, v) [] k' (Ne.symm h)
  | cons p rest ih =>
    by_cases hp : p.1 = k
    · simp only [setPairs, if_pos hp]
      rw [findPairs_cons_neg (k, v) rest k' (Ne.symm h), findPairs_cons_neg p rest k' (by rw [hp]; exact Ne.symm h)]
    · simp only [setPairs, if_neg hp]
      by_cases hp' : p.1 = k'
      · rw [findPairs_cons_pos _ _ k' hp', findPairs_cons_pos _ _ k' hp']
      · rw [findPairs_cons_neg _ _ k' hp', findPairs_cons_neg _ _ k' hp']
        exact ih

theorem mem_setPairs (k : String) (v : ThinkingSession)
    (l : List (String × ThinkingSession)) (p : String × ThinkingSession) :
    p ∈ setPairs k v l → p = (k, v) ∨ p ∈ l := by
  induction l with
  | nil => intro h; simpa [setPairs] using h
  | cons q rest ih =>
    intro h
    by_cases hq : q.1 = k
    · simp only [setPairs, if_pos hq, List.mem_cons] at h
      rcases h with h | h
      · exact Or.inl h
      · exact Or.inr (List.mem_cons_of_mem _ h)
    · simp only [setPairs, if_neg hq, List.mem_cons] at h
      rcases h with h | h
      · exact Or.inr (by simp [h])
      · rcases ih h with h' | h'
        · exact Or.inl h'
        · exact Or.inr (List.mem_cons_of_mem _ h')

theorem setPairs_self (k : String) (v : ThinkingSession)
    (l : List (String × ThinkingSession)) :
    findPairs l k = some v → setPairs k v l = l := by
  induction l with
  | nil => intro h; simp [findPairs, List.find?] at h
  | cons p rest ih =>
    intro h
    obtain ⟨k0, v0⟩ := p
    by_cases hp : k0 = k
    · have hpv : v0 = v := by
        have := findPairs_cons_pos (k0, v0) rest k hp
        rw [this] at h
        exact Option.some_injective _ h
      subst hp
      subst hpv
      simp [setPairs]
    · have h' : findPairs rest k = some v := by
        rw [findPairs_cons_neg (k0, v0) rest k hp] at h
        exact h
      simp [setPairs, hp, ih h']

theorem setPairs_setPairs (k : String) (v w : ThinkingSession)
    (l : List (String × ThinkingSession)) :
    setPairs k v (setPairs k w l) = setPairs k v l := by
  induction l with
  | nil => simp [setPairs]
  | cons p rest ih =>
    by_cases hp : p.1 = k
    · simp [setPairs, hp]
    · simp [setPairs, hp, ih]

/-! ## Unfolding lemmas for the engine operations -/

theorem getOrCreate_found (st : ManagerState) (now : Nat) (sid : String)
    (p : Option String) (s : ThinkingSession) (hne : sid ≠ "")
    (hfound : findSession st sid = some s) :
    getOrCreateSession st now (some sid) p = ((s, sid), st) := by
  simp [getOrCreateSession, resolveExisting, hne, hfound]

theorem addThought_thoughtType (st : ManagerState) (now : Nat) (i : AddThoughtInput) :
    (addThought st now i).1.thoughtType = i.thoughtType.getD (inferThoughtType i.thought) := by
  rcases hG : getOrCreateSession st now i.sessionId (some i.thought) with ⟨⟨s0, k⟩, st1⟩
  rcases hnb : i.newBranchName with _ | nm
  · simp [addThought, hG, hnb]
  · by_cases hnm : nm = "" <;> simp [addThought, hG, hnb, hnm, createBranch]

/-- Full description of a single `addThought` call on an existing session
when no new branch is being created: the thought is appended with the
branch-local step number, the branch set and active branch are untouched,
and the state is the old one with the session written back. -/
theorem addThought_found_spec (st : ManagerState) (now : Nat) (i : AddThoughtInput)
    (sid : String) (s : ThinkingSession)
    (hsid : i.sessionId = some sid) (hne : sid ≠ "")
    (hfound : findSession st sid = some s)
    (hnb : i.newBranchName = none ∨ i.newBranchName = some "") :
    ∃ s' T, (addThought st now i).2.sessions = setPairs sid s' st.sessions ∧
      (addThought st now i).2.counter = st.counter + 1 ∧
      findSession (addThought st now i).2 sid = some s' ∧
      s'.activeBranchId = s.activeBranchId ∧
      s'.branches = s.branches ∧
      s'.thoughts = s.thoughts ++ [T] ∧
      T.branchId = jsOrStr i.branchId s.activeBranchId ∧
      T.timestamp = now ∧
      T.thoughtType = i.thoughtType.getD (inferThoughtType i.thought) ∧
      T.stepNumber = (s.thoughts.filter (fun t => t.branchId == jsOrStr i.branchId s.activeBranchId)).length + 1 ∧
      (addThought st now i).1.stepNumber = T.stepNumber := by
  have hG := getOrCreate_found st now sid (some i.thought) s hne hfound
  have hfind : ∀ s' : ThinkingSession, ∀ c : Nat,
      findSession { sessions := setPairs sid s' st.sessions, counter := c } sid = some s' := by
    intro s' c
    simp [findSession, findPairs_setPairs_self]
  have hneg : ∀ T : ThoughtStep, ¬ (s.thoughts = [] ∧ s.problem = "") →
      ¬ ((s.thoughts ++ [T]).length = 1 ∧ s.problem = "") := by
    intro T hc h
    have hlen : s.thoughts.length = 0 := by
      have h1 := h.1
      simp only [List.length_append, List.length_cons, List.length_nil] at h1
      omega
    exact hc ⟨List.eq_nil_of_length_eq_zero hlen, h.2⟩
  rcases hnb with hnb | hnb
  · by_cases hc : s.thoughts = [] ∧ s.problem = ""
    · simp only [addThought, hsid, hG, hnb, reduceIte]
      rw [if_pos (by simp [hc.1, hc.2])]
      exact ⟨_, _, rfl, by trivial, hfind _ _, rfl, rfl, rfl, rfl, rfl, rfl, rfl, rfl⟩
    · simp only [addThought, hsid, hG, hnb, reduceIte]
      rw [if_neg (hneg _ hc)]
      exact ⟨_, _, rfl, by trivial, hfind _ _, rfl, rfl, rfl, rfl, rfl, rfl, rfl, rfl⟩
  · by_cases hc : s.thoughts = [] ∧ s.problem = ""
    · simp only [addThought, hsid, hG, hnb, reduceIte]
      rw [if_pos (by simp [hc.1, hc.2])]
      exact ⟨_, _, rfl, by trivial, hfind _ _, rfl, rfl, rfl, rfl, rfl, rfl, rfl, rfl⟩
    · simp only [addThought, hsid, hG, hnb, reduceIte]
      rw [if_neg (hneg _ hc)]
      exact ⟨_, _, rfl, by trivial, hfind _ _, rfl, rfl, rfl, rfl, rfl, rfl, rfl, rfl⟩

/-! ## Claim C7: the classifier follows the spec's ordered rule table -/

/-- C7: thought classification is the pure deterministic function given by
the spec's nine ordered keyword rules over the lower-cased text, first match
wins with fallback `analysis` (`inferThoughtType` coincides with the spec's
rule table `classifySpec` on every input); and `addThought` resolves the
stored and reported thought type as the caller's explicit `thoughtType`
when present, invoking the classifier only when it is omitted. -/
theorem inferThoughtType_matches_spec :
    (∀ s, inferThoughtType s = classifySpec s) ∧
    (∀ st now i, (addThought st now i).1.thoughtType = i.thoughtType.getD (inferThoughtType i.thought)) ∧
    (∀ st now i ty, i.thoughtType = some ty → (addThought st now i).1.thoughtType = ty) ∧
    (∀ st now i, i.thoughtType = none → (addThought st now i).1.thoughtType = inferThoughtType i.thought) := by
  refine ⟨fun _ => rfl, addThought_thoughtType, ?_, ?_⟩
  · intro st now i ty h
    rw [addThought_thoughtType, h]
    rfl
  · intro st now i h
    rw [addThought_thoughtType, h]
    rfl

/-- Witness for C7 at concrete inputs: a spec example sentence classifies
identically under code and spec rules, an explicit type wins, and an
omitted type falls back to the classifier. -/
theorem inferThoughtType_matches_spec_witness :
    inferThoughtType "Therefore the fix is X" = classifySpec "Therefore the fix is X" ∧
    (addThought initState 0 { thought := "Maybe we should use LRU", thoughtType := some ThoughtType.insight, sessionId := some "s", nextThoughtNeeded := true }).1.thoughtType = ThoughtType.insight ∧
    (addThought initState 0 { thought := "Maybe we should use LRU", sessionId := some "s", nextThoughtNeeded := true }).1.thoughtType = inferThoughtType "Maybe we should use LRU" :=
  ⟨inferThoughtType_matches_spec.1 _,
   inferThoughtType_matches_spec.2.2.1 _ _ _ _ rfl,
   inferThoughtType_matches_spec.2.2.2 _ _ _ rfl⟩

/-! ## Claim C2: a caller-supplied branchId routes but does not switch -/

/-- C2 counterexample: after `addThought` with `branchId := "ghost"` on a
session whose only branch is `main` (id `uuid 0`), the appended thought does
land on `"ghost"`, but `session.activeBranchId` is still `uuid 0`, not the
supplied `"ghost"` — refuting the claim that the engine switches the
session's active branch to the supplied id. -/
theorem addThought_branchId_no_switch_cex :
    ((findSession ((addThought (getOrCreateSession initState 0 (some "s") none).2 1
        { sessionId := some "s", thought := "hello", branchId := some "ghost", nextThoughtNeeded := true }).2) "s").map
      (fun s => (s.activeBranchId, s.thoughts.map (fun t => t.branchId)))) = some (uuid 0, ["ghost"]) ∧
    uuid 0 ≠ "ghost" := by
  constructor
  · rfl
  · decide

/-- C2 (amended): when `addThought` is given a non-empty `branchId` and no
`newBranchName`, the engine routes the appended thought onto the supplied
branch id without validating it (the thought's `branchId` and its
branch-local step number are computed against the supplied id), but the
session's persisted `activeBranchId` is left unchanged — the branch
selection applies to this call only. -/
theorem addThought_branchId_routing (st : ManagerState) (now : Nat) (i : AddThoughtInput)
    (sid b : String) (s : ThinkingSession)
    (hsid : i.sessionId = some sid) (hne : sid ≠ "")
    (hfound : findSession st sid = some s)
    (hb : i.branchId = some b) (hbne : b ≠ "")
    (hnb : i.newBranchName = none ∨ i.newBranchName = some "") :
    ∃ s', findSession (addThought st now i).2 sid = some s' ∧
      s'.activeBranchId = s.activeBranchId ∧
      ∃ T, s'.thoughts = s.thoughts ++ [T] ∧ T.branchId = b ∧
        T.stepNumber = (s.thoughts.filter (fun t => t.branchId == b)).length + 1 ∧
        (addThought st now i).1.stepNumber = T.stepNumber := by
  obtain ⟨s', T, -, -, hfind', hact, -, hth, hTb, -, -, hTn, hres⟩ :=
    addThought_found_spec st now i sid s hsid hne hfound hnb
  have hjs : jsOrStr i.branchId s.activeBranchId = b := by
    simp [jsOrStr, hb, hbne]
  exact ⟨s', hfind', hact, T, hth, by rw [hTb, hjs], by rw [hTn, hjs], hres⟩

/-- Witness for C2's amended theorem at the counterexample input. -/
theorem addThought_branchId_routing_witness :
    ∃ s', findSession ((addThought (getOrCreateSession initState 0 (some "s") none).2 1
        { sessionId := some "s", thought := "hello", branchId := some "ghost", nextThoughtNeeded := true }).2) "s" = some s' ∧
      s'.activeBranchId = ((getOrCreateSession initState 0 (some "s") none).1.1).activeBranchId ∧
      ∃ T, s'.thoughts = ((getOrCreateSession initState 0 (some "s") none).1.1).thoughts ++ [T] ∧
        T.branchId = "ghost" ∧
        T.stepNumber = (((getOrCreateSession initState 0 (some "s") none).1.1).thoughts.filter (fun t => t.branchId == "ghost")).length + 1 ∧
        ((addThought (getOrCreateSession initState 0 (some "s") none).2 1
          { sessionId := some "s", thought := "hello", branchId := some "ghost", nextThoughtNeeded := true }).1).stepNumber = T.stepNumber :=
  addThought_branchId_routing _ 1 _ "s" "ghost" _ rfl (by decide) rfl rfl (by decide) (Or.inl rfl)

/-! ## Claims C6 and C8: branch switching -/

theorem find?_append_of_none {α : Type} (p : α → Bool) (l1 l2 : List α)
    (h : ∀ x ∈ l1, p x = false) : List.find? p (l1 ++ l2) = List.find? p l2 := by
  induction l1 with
  | nil => rfl
  | cons a rest ih =>
    rw [List.cons_append, List.find?_cons_of_neg _ (by simp [h a (by simp)])]
    exact ih (fun x hx => h x (by simp [hx]))

/-- C6: `switchBranch` succeeds exactly when the session exists and holds a
branch whose name matches exactly; on success it sets the matched branch
active and refreshes `updatedAt`, on failure (unknown session or name) it
returns `false` and leaves the whole state — in particular
`activeBranchId` — untouched. -/
theorem switchBranch_spec (st : ManagerState) (now : Nat) (sid name : String) :
    ((switchBranch st now sid name).1 = true ↔
      ∃ s, findSession st sid = some s ∧ ∃ b ∈ s.branches, b.name = name) ∧
    ((switchBranch st now sid name).1 = false → (switchBranch st now sid name).2 = st) ∧
    (∀ s, findSession st sid = some s →
      ∀ b, s.branches.find? (fun x => x.name == name) = some b →
        switchBranch st now sid name = (true,
          { st with sessions := setPairs sid { s with activeBranchId := b.id, updatedAt := now } st.sessions }) ∧
        findSession (switchBranch st now sid name).2 sid =
          some { s with activeBranchId := b.id, updatedAt := now }) := by
  rcases hf : findSession st sid with _ | s
  · refine ⟨⟨fun h => ?_, fun h => ?_⟩, fun _ => by simp [switchBranch, hf], fun s hs => ?_⟩
    · simp [switchBranch, hf] at h
    · rcases h with ⟨s, hs, -⟩
      cases hs
    · cases hs
  · rcases hb : s.branches.find? (fun x => x.name == name) with _ | b
    · have hnone : ∀ b ∈ s.branches, b.name ≠ name := by
        intro b hbmem heq
        have hsome : (s.branches.find? (fun x => x.name == name)).isSome :=
          List.find?_isSome.mpr ⟨b, hbmem, by simp [heq]⟩
        rw [hb] at hsome
        cases hsome
      refine ⟨⟨fun h => ?_, fun h => ?_⟩, fun _ => by simp [switchBranch, hf, hb], fun s' hs' b' hb' => ?_⟩
      · simp [switchBranch, hf, hb] at h
      · rcases h with ⟨s', hs', b, hbmem, hname⟩
        injection hs' with hs'
        subst hs'
        exact absurd hname (hnone b hbmem)
      · injection hs' with hs'
        subst hs'
        rw [hb] at hb'
        cases hb'
    · have hbmem : b ∈ s.branches := List.mem_of_find?_eq_some hb
      have hbname : b.name = name := by
        have := List.find?_some hb
        simpa using this
      have hf' : findPairs st.sessions sid = some s := hf
      refine ⟨⟨fun _ => ⟨s, rfl, b, hbmem, hbname⟩, fun _ => by simp [switchBranch, hf, hb]⟩,
        fun h => ?_, fun s' hs' b' hb' => ?_⟩
      · simp [switchBranch, hf, hb] at h
      · injection hs' with hs'
        subst hs'
        rw [hb] at hb'
        injection hb' with hb'
        subst hb'
        constructor
        · simp [switchBranch, hf, hb]
        · simp [switchBranch, findSession, hf', hb, findPairs_setPairs_self]

/-- Witness for C6 on a concrete session: switching to `"main"` right after
session creation succeeds. -/
theorem switchBranch_spec_witness :
    (switchBranch ((getOrCreateSession initState 0 (some "s") none).2) 5 "s" "main").1 = true := by
  have h := (switchBranch_spec ((getOrCreateSession initState 0 (some "s") none).2) 5 "s" "main").2.2
    ((getOrCreateSession initState 0 (some "s") none).1.1) rfl
    { id := uuid 0, name := "main", parentBranchId := none, branchFromStepId := none,
      createdAt := 0, description := some "Main thinking branch" } rfl
  rw [h.1]

/-- C8 counterexample: a session with two branches both named `"alt"`
(created in that order with ids `uuid 2` then `uuid 4`); `switchBranch`
activates `uuid 2`, the FIRST-created match, not the last-created one —
refuting the last-created-wins claim. -/
theorem switchBranch_duplicate_name_cex :
    ((findSession (switchBranch (addRun initState
        [(0, { sessionId := some "s", thought := "start", nextThoughtNeeded := true }),
         (1, { sessionId := some "s", thought := "a", newBranchName := some "alt", nextThoughtNeeded := true }),
         (2, { sessionId := some "s", thought := "b", newBranchName := some "alt", nextThoughtNeeded := true })]) 10 "s" "alt").2 "s").map
      (fun s => (s.activeBranchId, (s.branches.filter (fun b => b.name == "alt")).map (fun b => b.id)))) =
      some (uuid 2, [uuid 2, uuid 4]) ∧ uuid 2 ≠ uuid 4 :=
  ⟨rfl, by decide⟩

/-- C8 (amended): on a branch-name collision, `switchBranch` resolves the
name to the FIRST-created (earliest-listed) branch with that name: if the
session's branch list splits as `l1 ++ b :: l2` with no match in `l1` and
`b` matching, the call succeeds and activates `b`, regardless of any later
matches in `l2`. -/
theorem switchBranch_first_match (st : ManagerState) (now : Nat) (sid name : String)
    (s : ThinkingSession) (l1 l2 : List ThinkingBranch) (b : ThinkingBranch)
    (hfound : findSession st sid = some s)
    (hsplit : s.branches = l1 ++ b :: l2)
    (hname : b.name = name) (hfirst : ∀ x ∈ l1, x.name ≠ name) :
    (switchBranch st now sid name).1 = true ∧
    ∃ s', findSession (switchBranch st now sid name).2 sid = some s' ∧
      s'.activeBranchId = b.id := by
  have hfind : s.branches.find? (fun x => x.name == name) = some b := by
    rw [hsplit, find?_append_of_none _ l1 _ (fun x hx => by simp [hfirst x hx]),
      List.find?_cons_of_pos _ (by simp [hname])]
  have h := (switchBranch_spec st now sid name).2.2 s hfound b hfind
  exact ⟨by rw [h.1], _, h.2, rfl⟩

/-- Witness for C8's amended theorem at the duplicate-name state of the
counterexample: the first-created `"alt"` branch (id `uuid 2`) wins. -/
theorem switchBranch_first_match_witness :
    (switchBranch (addRun initState
        [(0, { sessionId := some "s", thought := "start", nextThoughtNeeded := true }),
         (1, { sessionId := some "s", thought := "a", newBranchName := some "alt", nextThoughtNeeded := true }),
         (2, { sessionId := some "s", thought := "b", newBranchName := some "alt", nextThoughtNeeded := true })]) 10 "s" "alt").1 = true ∧
    ∃ s', findSession (switchBranch (addRun initState
        [(0, { sessionId := some "s", thought := "start", nextThoughtNeeded := true }),
         (1, { sessionId := some "s", thought := "a", newBranchName := some "alt", nextThoughtNeeded := true }),
         (2, { sessionId := some "s", thought := "b", newBranchName := some "alt", nextThoughtNeeded := true })]) 10 "s" "alt").2 "s" = some s' ∧
      s'.activeBranchId = uuid 2 :=
  switchBranch_first_match _ 10 "s" "alt" _
    [{ id := uuid 0, name := "main", parentBranchId := none, branchFromStepId := none,
       createdAt := 0, description := some "Main thinking branch" }]
    [{ id := uuid 4, name := "alt", parentBranchId := some (uuid 2),
       branchFromStepId := none, createdAt := 2, description := none }]
    { id := uuid 2, name := "alt", parentBranchId := some (uuid 0),
      branchFromStepId := none, createdAt := 1, description := none }
    rfl rfl rfl (by decide)

/-! ## Claim C1: branch-local step numbering is 1..N -/

theorem range'_snoc (a n : Nat) : List.range' a n ++ [a + n] = List.range' a (n + 1) := by
  induction n generalizing a with
  | zero => simp [List.range']
  | succ n ih =>
    rw [List.range'_succ, List.range'_succ, List.cons_append]
    have ha : a + (n + 1) = (a + 1) + n := by omega
    rw [ha, ih (a + 1)]

theorem addRun_stepNumbers (ops : List (Nat × AddThoughtInput)) :
    ∀ (st : ManagerState) (sid : String) (s : ThinkingSession) (k : Nat),
      sid ≠ "" →
      findSession st sid = some s →
      ((s.thoughts.filter (fun t => t.branchId == s.activeBranchId)).map (fun t => t.stepNumber)) = List.range' 1 k →
      (∀ p ∈ ops, p.2.sessionId = some sid ∧
        (p.2.branchId = none ∨ p.2.branchId = some "") ∧
        (p.2.newBranchName = none ∨ p.2.newBranchName = some "")) →
      ∃ s', findSession (addRun st ops) sid = some s' ∧
        s'.activeBranchId = s.activeBranchId ∧
        ((s'.thoughts.filter (fun t => t.branchId == s'.activeBranchId)).map (fun t => t.stepNumber)) = List.range' 1 (k + ops.length) := by
  induction ops with
  | nil =>
    intro st sid s k hne hfound hsteps hops
    exact ⟨s, hfound, rfl, by simpa using hsteps⟩
  | cons p rest ih =>
    obtain ⟨pn, pi⟩ := p
    intro st sid s k hne hfound hsteps hops
    obtain ⟨hpsid, hpb, hpnb⟩ := hops (pn, pi) (List.mem_cons_self _ _)
    dsimp only at hpsid hpb hpnb
    obtain ⟨s', T, -, -, hfind', hact, -, hth, hTb, -, -, hTn, -⟩ :=
      addThought_found_spec st pn pi sid s hpsid hne hfound hpnb
    have hjs : jsOrStr pi.branchId s.activeBranchId = s.activeBranchId := by
      rcases hpb with h | h <;> simp [jsOrStr, h]
    have hlen : (s.thoughts.filter (fun t => t.branchId == s.activeBranchId)).length = k := by
      have := congrArg List.length hsteps
      simpa using this
    rw [hjs] at hTb hTn
    rw [hlen] at hTn
    have hsteps' : ((s'.thoughts.filter (fun t => t.branchId == s'.activeBranchId)).map (fun t => t.stepNumber)) = List.range' 1 (k + 1) := by
      rw [hth, hact, List.filter_append, List.map_append]
      have hTfil : List.filter (fun t => t.branchId == s.activeBranchId) [T] = [T] := by
        simp [List.filter, hTb]
      rw [hTfil, hsteps]
      have hmap : List.map (fun t => t.stepNumber) [T] = [1 + k] := by
        simp [hTn]
        omega
      rw [hmap, range'_snoc]
    obtain ⟨s'', h1, h2, h3⟩ :=
      ih (addThought st pn pi).2 sid s' (k + 1) hne hfind' hsteps'
        (fun q hq => hops q (List.mem_cons_of_mem _ hq))
    refine ⟨s'', ?_, by rw [h2, hact], by rw [h3]; congr 1; simp; omega⟩
    simpa [addRun] using h1

/-- C1: for a session whose active branch holds no thoughts yet, any
sequence of N `addThought` calls that target that session and carry no
branch directive (no `branchId`, no `newBranchName`) leaves the active
branch unchanged and produces on it exactly the step numbers 1..N in
order; and each single such call assigns step number (count of thoughts
already on the active branch) + 1. -/
theorem addThought_stepNumbers_consecutive :
    (∀ (st : ManagerState) (now : Nat) (i : AddThoughtInput) (sid : String) (s : ThinkingSession),
      i.sessionId = some sid → sid ≠ "" → findSession st sid = some s →
      (i.branchId = none ∨ i.branchId = some "") →
      (i.newBranchName = none ∨ i.newBranchName = some "") →
      (addThought st now i).1.stepNumber =
        (s.thoughts.filter (fun t => t.branchId == s.activeBranchId)).length + 1) ∧
    (∀ (st : ManagerState) (sid : String) (s : ThinkingSession) (ops : List (Nat × AddThoughtInput)),
      sid ≠ "" → findSession st sid = some s →
      s.thoughts.filter (fun t => t.branchId == s.activeBranchId) = [] →
      (∀ p ∈ ops, p.2.sessionId = some sid ∧
        (p.2.branchId = none ∨ p.2.branchId = some "") ∧
        (p.2.newBranchName = none ∨ p.2.newBranchName = some "")) →
      ∃ s', findSession (addRun st ops) sid = some s' ∧
        s'.activeBranchId = s.activeBranchId ∧
        ((s'.thoughts.filter (fun t => t.branchId == s'.activeBranchId)).map (fun t => t.stepNumber)) = List.range' 1 ops.length) := by
  constructor
  · intro st now i sid s hsid hne hfound hb hnb
    obtain ⟨s', T, -, -, -, -, -, -, -, -, -, hTn, hres⟩ :=
      addThought_found_spec st now i sid s hsid hne hfound hnb
    have hjs : jsOrStr i.branchId s.activeBranchId = s.activeBranchId := by
      rcases hb with h | h <;> simp [jsOrStr, h]
    rw [hres, hTn, hjs]
  · intro st sid s ops hne hfound hempty hops
    have hsteps : ((s.thoughts.filter (fun t => t.branchId == s.activeBranchId)).map (fun t => t.stepNumber)) = List.range' 1 0 := by
      simp [hempty]
    obtain ⟨s', h1, h2, h3⟩ := addRun_stepNumbers ops st sid s 0 hne hfound hsteps hops
    exact ⟨s', h1, h2, by simpa using h3⟩

/-- Witness for C1: three plain appends on a fresh session yield step
numbers 1, 2, 3 on the `main` branch. -/
theorem addThought_stepNumbers_consecutive_witness :
    ∃ s', findSession (addRun ((getOrCreateSession initState 0 (some "s") none).2)
        [(1, { sessionId := some "s", thought := "one", nextThoughtNeeded := true }),
         (2, { sessionId := some "s", thought := "two", nextThoughtNeeded := true }),
         (3, { sessionId := some "s", thought := "three", nextThoughtNeeded := true })]) "s" = some s' ∧
      s'.activeBranchId = ((getOrCreateSession initState 0 (some "s") none).1.1).activeBranchId ∧
      ((s'.thoughts.filter (fun t => t.branchId == s'.activeBranchId)).map (fun t => t.stepNumber)) = List.range' 1 3 :=
  addThought_stepNumbers_consecutive.2 _ "s" _ _ (by decide) rfl rfl (by decide)

/-! ## Claim C4: completing a session with a final conclusion -/

/-- C4 counterexample: a session with 3 thoughts in total whose active
branch `main` holds only 1 of them; completing with a conclusion text
appends a thought with `stepNumber = 4` (session-wide count + 1), while the
claim's "count of thoughts already on that branch plus 1" would be 2. -/
theorem complete_stepNumber_not_branch_local_cex :
    ((findSession (completeThinkingSession (switchBranch (addRun initState
        [(0, { sessionId := some "s", thought := "start", nextThoughtNeeded := true }),
         (1, { sessionId := some "s", thought := "alt one", newBranchName := some "alt", nextThoughtNeeded := true }),
         (2, { sessionId := some "s", thought := "alt two", nextThoughtNeeded := true })]) 3 "s" "main").2 4 "s" (some "Therefore done")).2 "s").map
      (fun s => ((s.thoughts.getLast?).map (fun t => (t.stepNumber, t.thoughtType)),
        s.status == SessionStatus.completed))) = some (some (4, ThoughtType.conclusion), true) ∧
    ((findSession (switchBranch (addRun initState
        [(0, { sessionId := some "s", thought := "start", nextThoughtNeeded := true }),
         (1, { sessionId := some "s", thought := "alt one", newBranchName := some "alt", nextThoughtNeeded := true }),
         (2, { sessionId := some "s", thought := "alt two", nextThoughtNeeded := true })]) 3 "s" "main").2 "s").map
      (fun s => (s.thoughts.filter (fun t => t.branchId == s.activeBranchId)).length + 1)) = some 2 ∧
    (4 : Nat) ≠ 2 :=
  ⟨rfl, rfl, by decide⟩

/-- C4 (amended): completing an existing session with a non-empty final
conclusion text appends exactly one thought of type `conclusion` directly
(not through `addThought`) onto the then-active branch, numbered with the
session-wide thought count plus one (not the per-branch count), and then
sets the status to `completed`; completing without a conclusion text (or
with an empty one) appends nothing and only sets the status (touching
`updatedAt`); an unknown session id fails and changes nothing. -/
theorem completeThinkingSession_spec (st : ManagerState) (now : Nat) (sid : String)
    (c : Option String) :
    (findSession st sid = none → completeThinkingSession st now sid c = (false, st)) ∧
    (∀ s, findSession st sid = some s → (c = none ∨ c = some "") →
      ∃ s', completeThinkingSession st now sid c =
          (true, { sessions := setPairs sid s' st.sessions, counter := st.counter }) ∧
        s'.thoughts = s.thoughts ∧ s'.status = SessionStatus.completed ∧
        s'.updatedAt = now ∧ s'.activeBranchId = s.activeBranchId ∧ s'.branches = s.branches) ∧
    (∀ s txt, findSession st sid = some s → c = some txt → txt ≠ "" →
      ∃ s' T, completeThinkingSession st now sid c =
          (true, { sessions := setPairs sid s' st.sessions, counter := st.counter + 1 }) ∧
        s'.thoughts = s.thoughts ++ [T] ∧
        T.thoughtType = ThoughtType.conclusion ∧
        T.thought = txt ∧
        T.branchId = s.activeBranchId ∧
        T.stepNumber = s.thoughts.length + 1 ∧
        s'.status = SessionStatus.completed ∧ s'.updatedAt = now ∧
        s'.activeBranchId = s.activeBranchId ∧ s'.branches = s.branches) := by
  rcases hf : findSession st sid with _ | s
  · refine ⟨fun _ => by simp [completeThinkingSession, hf], ?_, ?_⟩
    · intro s hs hc
      cases hs
    · intro s txt hs hctxt htne
      cases hs
  · refine ⟨?_, ?_, ?_⟩
    · intro h
      cases h
    · intro s0 hs hc
      injection hs with hs
      subst hs
      rcases hc with hc | hc <;> subst hc
      · simp only [completeThinkingSession, hf]
        exact ⟨_, rfl, rfl, rfl, rfl, rfl, rfl⟩
      · simp only [completeThinkingSession, hf]
        exact ⟨_, rfl, rfl, rfl, rfl, rfl, rfl⟩
    · intro s0 txt hs hctxt htne
      injection hs with hs
      subst hs
      subst hctxt
      simp only [completeThinkingSession, hf]
      rw [if_neg htne]
      exact ⟨_, _, rfl, rfl, rfl, rfl, rfl, rfl, rfl, rfl, rfl, rfl⟩

/-- Witness for C4's amended theorem: completing a fresh session with a
conclusion text appends one conclusion thought with step number 1. -/
theorem completeThinkingSession_spec_witness :
    ∃ s' T, completeThinkingSession ((getOrCreateSession initState 0 (some "s") none).2) 1 "s" (some "Therefore finished") =
        (true, { sessions := setPairs "s" s' ((getOrCreateSession initState 0 (some "s") none).2).sessions,
                 counter := ((getOrCreateSession initState 0 (some "s") none).2).counter + 1 }) ∧
      s'.thoughts = ((getOrCreateSession initState 0 (some "s") none).1.1).thoughts ++ [T] ∧
      T.thoughtType = ThoughtType.conclusion ∧
      T.thought = "Therefore finished" ∧
      T.branchId = ((getOrCreateSession initState 0 (some "s") none).1.1).activeBranchId ∧
      T.stepNumber = ((getOrCreateSession initState 0 (some "s") none).1.1).thoughts.length + 1 ∧
      s'.status = SessionStatus.completed ∧ s'.updatedAt = 1 ∧
      s'.activeBranchId = ((getOrCreateSession initState 0 (some "s") none).1.1).activeBranchId ∧
      s'.branches = ((getOrCreateSession initState 0 (some "s") none).1.1).branches :=
  (completeThinkingSession_spec ((getOrCreateSession initState 0 (some "s") none).2) 1 "s"
    (some "Therefore finished")).2.2 _ "Therefore finished" rfl rfl (by decide)

/-! ## Reachable-state invariants -/

def branchIds (s : ThinkingSession) : List String :=
  s.branches.map (fun b => b.id)

/-- Internal well-formedness of one session relative to the uuid counter and
the wall clock: the active branch exists, branch ids are pairwise distinct
and were all generated below the counter, and thought timestamps are
non-decreasing in append order and never in the future. -/
def sessionInv (ctr clock : Nat) (s : ThinkingSession) : Prop :=
  s.activeBranchId ∈ branchIds s ∧
  (branchIds s).Nodup ∧
  (∀ b ∈ s.branches, b.id.length ≤ ctr) ∧
  List.Chain' (fun a b => a.timestamp ≤ b.timestamp) s.thoughts ∧
  (∀ t ∈ s.thoughts, t.timestamp ≤ clock)

def StateInv (st : ManagerState) (clock : Nat) : Prop :=
  ∀ p ∈ st.sessions, sessionInv st.counter clock p.2

theorem sessionInv_mono (c c' k k' : Nat) (s : ThinkingSession)
    (hc : c ≤ c') (hk : k ≤ k') (h : sessionInv c k s) : sessionInv c' k' s :=
  ⟨h.1, h.2.1, fun b hb => le_trans (h.2.2.1 b hb) hc, h.2.2.2.1,
    fun t ht => le_trans (h.2.2.2.2 t ht) hk⟩

theorem self_mem_setPairs (k : String) (v : ThinkingSession)
    (l : List (String × ThinkingSession)) : (k, v) ∈ setPairs k v l := by
  induction l with
  | nil => simp [setPairs]
  | cons p rest ih =>
    by_cases hp : p.1 = k
    · simp [setPairs, hp]
    · simp only [setPairs, if_neg hp]
      exact List.mem_cons_of_mem _ ih

theorem findPairs_mem (l : List (String × ThinkingSession)) (k : String)
    (v : ThinkingSession) (h : findPairs l k = some v) : ∃ q ∈ l, q.2 = v := by
  simp only [findPairs, Option.map_eq_some'] at h
  obtain ⟨q, hq, hqv⟩ := h
  exact ⟨q, List.mem_of_find?_eq_some hq, hqv⟩

theorem fresh_not_mem_branchIds (s : ThinkingSession) (c n : Nat)
    (h : ∀ b ∈ s.branches, b.id.length ≤ c) (hn : c ≤ n) :
    uuid n ∉ branchIds s := by
  intro hmem
  simp only [branchIds, List.mem_map] at hmem
  obtain ⟨b, hb, hid⟩ := hmem
  have hlen := h b hb
  rw [hid, uuid_length] at hlen
  omega

theorem sortByTs_eq_self (l : List ThoughtStep)
    (h : List.Chain' (fun a b => a.timestamp ≤ b.timestamp) l) : sortByTs l = l := by
  induction l with
  | nil => rfl
  | cons t rest ih =>
    cases rest with
    | nil => rfl
    | cons u rest' =>
      obtain ⟨htu, hrest⟩ := List.chain'_cons.mp h
      rw [sortByTs, ih hrest]
      simp [insertTs, htu]

theorem chain'_append_last (l : List ThoughtStep) (T : ThoughtStep)
    (h : List.Chain' (fun a b => a.timestamp ≤ b.timestamp) l)
    (hle : ∀ t ∈ l, t.timestamp ≤ T.timestamp) :
    List.Chain' (fun a b => a.timestamp ≤ b.timestamp) (l ++ [T]) := by
  rw [List.chain'_append]
  refine ⟨h, List.chain'_singleton _, ?_⟩
  intro x hx y hy
  simp only [List.head?_cons, Option.mem_def, Option.some.injEq] at hy
  subst hy
  exact hle x (by
    have := List.mem_of_mem_getLast? hx
    exact this)

/-- Both parts of preserving `sessionInv` across a thought append that keeps
the branch structure (used by `addThought` without a new branch and by the
complete handler). -/
theorem sessionInv_append (c c' k now : Nat) (s0 s1 : ThinkingSession) {T : ThoughtStep}
    (h : sessionInv c k s0) (hc : c ≤ c') (hk : k ≤ now)
    (hbr : s1.branches = s0.branches) (hact : s1.activeBranchId = s0.activeBranchId)
    (hth : s1.thoughts = s0.thoughts ++ [T]) (hT : T.timestamp = now) : sessionInv c' now s1 := by
  refine ⟨?_, ?_, ?_, ?_, ?_⟩
  · rw [hact]
    have : branchIds s1 = branchIds s0 := by rw [branchIds, hbr, branchIds]
    rw [this]
    exact h.1
  · have : branchIds s1 = branchIds s0 := by rw [branchIds, hbr, branchIds]
    rw [this]
    exact h.2.1
  · intro b hb
    rw [hbr] at hb
    exact le_trans (h.2.2.1 b hb) hc
  · rw [hth]
    exact chain'_append_last _ _ h.2.2.2.1
      (fun t ht => by rw [hT]; exact le_trans (h.2.2.2.2 t ht) hk)
  · intro t ht
    rw [hth] at ht
    rcases List.mem_append.mp ht with ht | ht
    · exact le_trans (h.2.2.2.2 t ht) hk
    · simp only [List.mem_singleton] at ht
      subst ht
      rw [hT]

/-- Preservation of `sessionInv` when a freshly generated branch is appended
and activated and one thought lands on it (the `newBranchName` path of
`addThought`). -/
theorem sessionInv_newbranch (c now k : Nat) (s0 s1 : ThinkingSession)
    {nb : ThinkingBranch} {T : ThoughtStep}
    (h : sessionInv c k s0) (hk : k ≤ now)
    (hbr : s1.branches = s0.branches ++ [nb])
    (hact : s1.activeBranchId = nb.id)
    (hth : s1.thoughts = s0.thoughts ++ [T])
    (hid : nb.id = uuid c) (hT : T.timestamp = now) : sessionInv (c + 2) now s1 := by
  have hids : branchIds s1 = branchIds s0 ++ [nb.id] := by
    rw [branchIds, hbr, List.map_append, branchIds, List.map_cons, List.map_nil]
  have hfresh : nb.id ∉ branchIds s0 := by
    rw [hid]
    exact fresh_not_mem_branchIds s0 c c h.2.2.1 le_rfl
  refine ⟨?_, ?_, ?_, ?_, ?_⟩
  · rw [hact, hids]
    exact List.mem_append_right _ (List.mem_singleton_self _)
  · rw [hids, List.nodup_append]
    exact ⟨h.2.1, List.nodup_singleton _, by simpa [List.disjoint_singleton] using hfresh⟩
  · intro b hb
    rw [hbr] at hb
    rcases List.mem_append.mp hb with hb | hb
    · exact le_trans (h.2.2.1 b hb) (by omega)
    · simp only [List.mem_singleton] at hb
      subst hb
      rw [hid, uuid_length]
      omega
  · rw [hth]
    exact chain'_append_last _ _ h.2.2.2.1
      (fun t ht => by rw [hT]; exact le_trans (h.2.2.2.2 t ht) hk)
  · intro t ht
    rw [hth] at ht
    rcases List.mem_append.mp ht with ht | ht
    · exact le_trans (h.2.2.2.2 t ht) hk
    · simp only [List.mem_singleton] at ht
      subst ht
      rw [hT]

theorem resolveExisting_some (st : ManagerState) (sid : Option String)
    (s : ThinkingSession) (key : String)
    (h : resolveExisting st sid = some (s, key)) :
    sid = some key ∧ key ≠ "" ∧ findSession st key = some s := by
  rcases sid with _ | sv
  · simp [resolveExisting] at h
  · simp only [resolveExisting] at h
    by_cases hv : sv = ""
    · rw [if_pos hv] at h
      cases h
    · rw [if_neg hv] at h
      rcases hf : findSession st sv with _ | s0
      · rw [hf] at h
        cases h
      · rw [hf] at h
        simp only [Option.map_some', Option.some.injEq, Prod.mk.injEq] at h
        obtain ⟨h1, h2⟩ := h
        subst h2
        subst h1
        exact ⟨rfl, hv, hf⟩

/-- A freshly created one-branch session with no thoughts satisfies the
session invariant as soon as its only branch id length is within the
counter. -/
theorem sessionInv_fresh (ctr clock : Nat) (s : ThinkingSession) (b : ThinkingBranch)
    (hth : s.thoughts = []) (hbr : s.branches = [b]) (hact : s.activeBranchId = b.id)
    (hlen : b.id.length ≤ ctr) : sessionInv ctr clock s := by
  refine ⟨?_, ?_, ?_, ?_, ?_⟩
  · rw [hact, branchIds, hbr]
    simp
  · rw [branchIds, hbr]
    simp
  · intro b' hb'
    rw [hbr] at hb'
    simp only [List.mem_singleton] at hb'
    subst hb'
    exact hlen
  · rw [hth]
    simp
  · intro t ht
    rw [hth] at ht
    cases ht

theorem getOrCreate_inv (st : ManagerState) (clock now : Nat) (sid p : Option String)
    (h : StateInv st clock) (hcn : clock ≤ now) :
    StateInv (getOrCreateSession st now sid p).2 now ∧
    sessionInv (getOrCreateSession st now sid p).2.counter now (getOrCreateSession st now sid p).1.1 ∧
    st.counter ≤ (getOrCreateSession st now sid p).2.counter := by
  have create_ok : ∀ ctr : Nat, st.counter ≤ ctr →
      ∀ s : ThinkingSession, s.thoughts = [] →
        (∃ b : ThinkingBranch, s.branches = [b] ∧ s.activeBranchId = b.id ∧ b.id = uuid ctr) →
        sessionInv (ctr + 1) now s := by
    intro ctr hctr s hth ⟨b, hbr, hact, hbid⟩
    exact sessionInv_fresh (ctr + 1) now s b hth hbr hact (by rw [hbid, uuid_length])
  rcases hre : resolveExisting st sid with _ | sk
  · rcases sid with _ | sv
    · simp only [getOrCreateSession, resolveExisting]
      refine ⟨?_, ?_, ?_⟩
      · intro q hq
        rcases mem_setPairs _ _ _ _ hq with hq | hq
        · subst hq
          exact create_ok (st.counter + 1) (by omega) _ rfl ⟨_, rfl, rfl, rfl⟩
        · exact sessionInv_mono st.counter (st.counter + 2) clock now _ (by omega) hcn (h q hq)
      · exact create_ok (st.counter + 1) (by omega) _ rfl ⟨_, rfl, rfl, rfl⟩
      · exact (by omega : st.counter ≤ st.counter + 2)
    · by_cases hv : sv = ""
      · simp only [getOrCreateSession, resolveExisting, if_pos hv]
        refine ⟨?_, ?_, ?_⟩
        · intro q hq
          rcases mem_setPairs _ _ _ _ hq with hq | hq
          · subst hq
            exact create_ok (st.counter + 1) (by omega) _ rfl ⟨_, rfl, rfl, rfl⟩
          · exact sessionInv_mono st.counter (st.counter + 2) clock now _ (by omega) hcn (h q hq)
        · exact create_ok (st.counter + 1) (by omega) _ rfl ⟨_, rfl, rfl, rfl⟩
        · exact (by omega : st.counter ≤ st.counter + 2)
      · have hre' : resolveExisting st (some sv) = none := hre
        simp only [resolveExisting, if_neg hv] at hre'
        rcases hf : findSession st sv with _ | s0
        · simp only [getOrCreateSession, resolveExisting, if_neg hv, hf, Option.map_none']
          refine ⟨?_, ?_, ?_⟩
          · intro q hq
            rcases mem_setPairs _ _ _ _ hq with hq | hq
            · subst hq
              exact create_ok st.counter (by omega) _ rfl ⟨_, rfl, rfl, rfl⟩
            · exact sessionInv_mono st.counter (st.counter + 1) clock now _ (by omega) hcn (h q hq)
          · exact create_ok st.counter (by omega) _ rfl ⟨_, rfl, rfl, rfl⟩
          · exact (by omega : st.counter ≤ st.counter + 1)
        · rw [hf] at hre'
          simp at hre'
  · obtain ⟨s, key⟩ := sk
    obtain ⟨hsid, hkey, hfind⟩ := resolveExisting_some st sid s key hre
    simp only [getOrCreateSession, hre]
    obtain ⟨q0, hq0, hq0v⟩ := findPairs_mem st.sessions key s hfind
    refine ⟨fun q hq => sessionInv_mono st.counter st.counter clock now _ le_rfl hcn (h q hq), ?_, le_rfl⟩
    have := h q0 hq0
    rw [hq0v] at this
    exact sessionInv_mono st.counter st.counter clock now _ le_rfl hcn this

theorem addThought_inv (st : ManagerState) (clock now : Nat) (i : AddThoughtInput)
    (h : StateInv st clock) (hcn : clock ≤ now) :
    StateInv (addThought st now i).2 now := by
  obtain ⟨hst1, hs0, hctr⟩ := getOrCreate_inv st clock now i.sessionId (some i.thought) h hcn
  rcases hG : getOrCreateSession st now i.sessionId (some i.thought) with ⟨⟨s0, key⟩, st1⟩
  rw [hG] at hst1 hs0 hctr
  rcases hnb : i.newBranchName with _ | nm
  · simp only [addThought, hG, hnb]
    intro q hq
    rcases mem_setPairs _ _ _ _ hq with hq | hq
    · subst hq
      exact sessionInv_append st1.counter (st1.counter + 1) now now s0 _ hs0 (by omega) le_rfl
        (by split <;> rfl) (by split <;> rfl) (by split <;> rfl) rfl
    · exact sessionInv_mono st1.counter (st1.counter + 1) now now _ (by omega) le_rfl (hst1 q hq)
  · by_cases hnm : nm = ""
    · subst hnm
      simp only [addThought, hG, hnb, reduceIte]
      intro q hq
      rcases mem_setPairs _ _ _ _ hq with hq | hq
      · subst hq
        exact sessionInv_append st1.counter (st1.counter + 1) now now s0 _ hs0 (by omega) le_rfl
          (by split <;> rfl) (by split <;> rfl) (by split <;> rfl) rfl
      · exact sessionInv_mono st1.counter (st1.counter + 1) now now _ (by omega) le_rfl (hst1 q hq)
    · simp only [addThought, hG, hnb]
      rw [if_neg hnm]
      simp only [createBranch]
      intro q hq
      rcases mem_setPairs _ _ _ _ hq with hq | hq
      · subst hq
        exact sessionInv_newbranch st1.counter now now s0 _ hs0 le_rfl
          (by split <;> rfl) (by split <;> rfl) (by split <;> rfl) rfl rfl
      · exact sessionInv_mono st1.counter (st1.counter + 2) now now _ (by omega) le_rfl (hst1 q hq)

theorem switchBranch_inv (st : ManagerState) (clock now : Nat) (sid nm : String)
    (h : StateInv st clock) (hcn : clock ≤ now) :
    StateInv (switchBranch st now sid nm).2 now := by
  rcases hf : findSession st sid with _ | s
  · simp only [switchBranch, hf]
    exact fun q hq => sessionInv_mono st.counter st.counter clock now _ le_rfl hcn (h q hq)
  · rcases hb : s.branches.find? (fun b => b.name == nm) with _ | b
    · simp only [switchBranch, hf, hb]
      exact fun q hq => sessionInv_mono st.counter st.counter clock now _ le_rfl hcn (h q hq)
    · simp only [switchBranch, hf, hb]
      intro q hq
      rcases mem_setPairs _ _ _ _ hq with hq | hq
      · subst hq
        obtain ⟨q0, hq0, hq0v⟩ := findPairs_mem st.sessions sid s hf
        have hs := h q0 hq0
        rw [hq0v] at hs
        refine ⟨?_, hs.2.1, fun b' hb' => le_trans (hs.2.2.1 b' hb') le_rfl, hs.2.2.2.1,
          fun t ht => le_trans (hs.2.2.2.2 t ht) hcn⟩
        have hbmem : b ∈ s.branches := List.mem_of_find?_eq_some hb
        exact List.mem_map.mpr ⟨b, hbmem, rfl⟩
      · exact sessionInv_mono st.counter st.counter clock now _ le_rfl hcn (h q hq)

theorem updateStatus_inv (st : ManagerState) (clock now : Nat) (sid : String)
    (status : SessionStatus) (h : StateInv st clock) (hcn : clock ≤ now) :
    StateInv (updateSessionStatus st now sid status).2 now := by
  rcases hf : findSession st sid with _ | s
  · simp only [updateSessionStatus, hf]
    exact fun q hq => sessionInv_mono st.counter st.counter clock now _ le_rfl hcn (h q hq)
  · simp only [updateSessionStatus, hf]
    intro q hq
    rcases mem_setPairs _ _ _ _ hq with hq | hq
    · subst hq
      obtain ⟨q0, hq0, hq0v⟩ := findPairs_mem st.sessions sid s hf
      have hs := h q0 hq0
      rw [hq0v] at hs
      exact ⟨hs.1, hs.2.1, hs.2.2.1, hs.2.2.2.1, fun t ht => le_trans (hs.2.2.2.2 t ht) hcn⟩
    · exact sessionInv_mono st.counter st.counter clock now _ le_rfl hcn (h q hq)

/-- On any state satisfying the invariant — in particular every reachable
state — `getSummary` leaves the state exactly as it was: the in-place sort
of the session's thoughts is the identity because reachable timestamp lists
are already non-decreasing. -/
theorem getSummary_state_id (st : ManagerState) (clock : Nat) (sid : String)
    (h : StateInv st clock) : (getSummary st sid).2 = st := by
  rcases hf : findSession st sid with _ | s
  · simp [getSummary, hf]
  · simp only [getSummary, hf]
    obtain ⟨q0, hq0, hq0v⟩ := findPairs_mem st.sessions sid s hf
    have hchain : List.Chain' (fun a b => a.timestamp ≤ b.timestamp) s.thoughts := by
      have := (h q0 hq0).2.2.2.1
      rw [hq0v] at this
      exact this
    have hsort : sortByTs s.thoughts = s.thoughts := sortByTs_eq_self _ hchain
    simp only [hsort]
    have hf' : findPairs st.sessions sid = some s := hf
    show ({ sessions := setPairs sid s st.sessions, counter := st.counter } : ManagerState) = st
    rw [setPairs_self sid s st.sessions hf']

theorem getSummary_inv (st : ManagerState) (clock now : Nat) (sid : String)
    (h : StateInv st clock) (hcn : clock ≤ now) :
    StateInv (getSummary st sid).2 now := by
  rw [getSummary_state_id st clock sid h]
  exact fun q hq => sessionInv_mono st.counter st.counter clock now _ le_rfl hcn (h q hq)

theorem complete_inv (st : ManagerState) (clock now : Nat) (sid : String)
    (c : Option String) (h : StateInv st clock) (hcn : clock ≤ now) :
    StateInv (completeThinkingSession st now sid c).2 now := by
  rcases hf : findSession st sid with _ | s
  · simp only [completeThinkingSession, hf]
    exact fun q hq => sessionInv_mono st.counter st.counter clock now _ le_rfl hcn (h q hq)
  · obtain ⟨q0, hq0, hq0v⟩ := findPairs_mem st.sessions sid s hf
    have hs : sessionInv st.counter clock s := by
      have := h q0 hq0
      rw [hq0v] at this
      exact this
    rcases hc : c with _ | txt
    · simp only [completeThinkingSession, hf, hc]
      intro q hq
      rcases mem_setPairs _ _ _ _ hq with hq | hq
      · subst hq
        exact ⟨hs.1, hs.2.1, hs.2.2.1, hs.2.2.2.1, fun t ht => le_trans (hs.2.2.2.2 t ht) hcn⟩
      · exact sessionInv_mono st.counter st.counter clock now _ le_rfl hcn (h q hq)
    · by_cases htxt : txt = ""
      · subst htxt
        simp only [completeThinkingSession, hf, hc, reduceIte]
        intro q hq
        rcases mem_setPairs _ _ _ _ hq with hq | hq
        · subst hq
          exact ⟨hs.1, hs.2.1, hs.2.2.1, hs.2.2.2.1, fun t ht => le_trans (hs.2.2.2.2 t ht) hcn⟩
        · exact sessionInv_mono st.counter st.counter clock now _ le_rfl hcn (h q hq)
      · simp only [completeThinkingSession, hf, hc]
        rw [if_neg htxt]
        intro q hq
        rcases mem_setPairs _ _ _ _ hq with hq | hq
        · subst hq
          exact sessionInv_append st.counter (st.counter + 1) clock now s _ hs (by omega) hcn
            rfl rfl rfl rfl
        · exact sessionInv_mono st.counter (st.counter + 1) clock now _ (by omega) hcn (h q hq)

theorem applyOp_inv (st : ManagerState) (clock now : Nat) (op : EngineOp)
    (h : StateInv st clock) (hcn : clock ≤ now) :
    StateInv (applyOp st now op) now := by
  cases op with
  | getOrCreate sid p => exact (getOrCreate_inv st clock now sid p h hcn).1
  | add input => exact addThought_inv st clock now input h hcn
  | switch sid nm => exact switchBranch_inv st clock now sid nm h hcn
  | setStatus sid status => exact updateStatus_inv st clock now sid status h hcn
  | summary sid => exact getSummary_inv st clock now sid h hcn
  | complete sid c => exact complete_inv st clock now sid c h hcn

theorem reachable_inv (st : ManagerState) (c : Nat) (h : Reachable st c) :
    StateInv st c := by
  induction h with
  | init => intro q hq; cases hq
  | step st' c' now op hr hle ih => exact applyOp_inv st' c' now op ih hle

/-! ## Claim C3: the active branch always exists -/

/-- C3: in every reachable manager state — i.e. after any sequence of engine
operations, including `addThought` calls carrying arbitrary caller-supplied
`branchId` values — every session's `activeBranchId` is the id of a branch
present in that session's `branches` list. The supplied `branchId` is only
used to route the single appended thought and is never stored into
`activeBranchId`, so the invariant survives it. -/
theorem activeBranchId_always_valid (st : ManagerState) (c : Nat) (h : Reachable st c) :
    ∀ q ∈ st.sessions, q.2.activeBranchId ∈ q.2.branches.map (fun b => b.id) :=
  fun q hq => (reachable_inv st c h q hq).1

/-- The one session of the reachable state used as the C3 witness: it was
created by a single `addThought` call that supplied the bogus
`branchId := "ghost"`. -/
def c3WitnessSession : ThinkingSession :=
  let T : ThoughtStep :=
    { id := uuid 1, stepNumber := 1, thought := "hi", thoughtType := ThoughtType.analysis,
      isRevision := false, revisesStep := none, branchId := "ghost", branchFromStep := none,
      confidence := none, tags := none, timestamp := 0 }
  let B : ThinkingBranch :=
    { id := uuid 0, name := "main", parentBranchId := none, branchFromStepId := none,
      createdAt := 0, description := some "Main thinking branch" }
  { id := "s", title := "hi", problem := "hi", thoughts := [T], branches := [B],
    activeBranchId := uuid 0, createdAt := 0, updatedAt := 0, status := SessionStatus.active }

/-- Witness for C3 at a concrete reachable state whose one `addThought` call
supplied a bogus `branchId`: the stored session still has a valid active
branch. -/
theorem activeBranchId_always_valid_witness :
    c3WitnessSession.activeBranchId ∈ c3WitnessSession.branches.map (fun b => b.id) :=
  activeBranchId_always_valid
    (applyOp initState 0 (EngineOp.add
      { sessionId := some "s", thought := "hi", branchId := some "ghost", nextThoughtNeeded := true })) 0
    (Reachable.step initState 0 0 _ Reachable.init (Nat.le_refl 0))
    ("s", c3WitnessSession) (by decide)

/-! ## Claim C9: getSummary and listSessions are pure reads -/

/-- C9: on every reachable state, `getSummary` leaves the whole session
store unchanged — its in-place sort of the session's thoughts is the
identity permutation because reachable thought lists are already
timestamp-sorted — and `listSessions` is a pure function of the state, so
repeated calls with no intervening mutation return identical results. -/
theorem getSummary_listSessions_pure (st : ManagerState) (c : Nat) (sid : String)
    (h : Reachable st c) :
    (getSummary st sid).2 = st ∧
    (getSummary (getSummary st sid).2 sid).1 = (getSummary st sid).1 ∧
    listSessions (getSummary st sid).2 = listSessions st ∧
    (∀ q ∈ st.sessions, sortByTs q.2.thoughts = q.2.thoughts) := by
  have hinv := reachable_inv st c h
  have hid := getSummary_state_id st c sid hinv
  exact ⟨hid, by rw [hid], by rw [hid],
    fun q hq => sortByTs_eq_self _ (hinv q hq).2.2.2.1⟩

/-- Witness for C9 at a concrete reachable two-thought state. -/
theorem getSummary_listSessions_pure_witness :
    (getSummary (applyOp (applyOp initState 0 (EngineOp.add
        { sessionId := some "s", thought := "one", nextThoughtNeeded := true })) 1 (EngineOp.add
        { sessionId := some "s", thought := "two", nextThoughtNeeded := true })) "s").2 =
      (applyOp (applyOp initState 0 (EngineOp.add
        { sessionId := some "s", thought := "one", nextThoughtNeeded := true })) 1 (EngineOp.add
        { sessionId := some "s", thought := "two", nextThoughtNeeded := true })) :=
  (getSummary_listSessions_pure _ 1 "s"
    (Reachable.step _ 0 1 _ (Reachable.step initState 0 0 _ Reachable.init (Nat.le_refl 0)) (by omega))).1

/-! ## Claim C5: summary round-trip and the per-branch partition -/

theorem countP_or_disjoint {α : Type} (p q : α → Bool) (l : List α)
    (h : ∀ x ∈ l, ¬(p x = true ∧ q x = true)) :
    List.countP (fun x => p x || q x) l = List.countP p l + List.countP q l := by
  induction l with
  | nil => simp
  | cons a rest ih =>
    have ha := h a (List.mem_cons_self _ _)
    have ih' := ih (fun x hx => h x (List.mem_cons_of_mem _ hx))
    cases hpa : p a <;> cases hqa : q a
    · simp [List.countP_cons, hpa, hqa, ih']
    · simp [List.countP_cons, hpa, hqa, ih']
      omega
    · simp [List.countP_cons, hpa, hqa, ih']
      omega
    · exact absurd ⟨hpa, hqa⟩ ha

theorem sum_branch_counts (ks : List String) (l : List ThoughtStep) (hnd : ks.Nodup) :
    ((ks.map (fun k => (l.filter (fun t => t.branchId == k)).length)).sum)
      = (l.filter (fun t => ks.any (fun k => t.branchId == k))).length := by
  induction ks with
  | nil => simp
  | cons k rest ih =>
    obtain ⟨hk, hnd'⟩ := List.nodup_cons.mp hnd
    rw [List.map_cons, List.sum_cons, ih hnd']
    rw [← List.countP_eq_length_filter, ← List.countP_eq_length_filter, ← List.countP_eq_length_filter]
    have hdisj : ∀ x ∈ l, ¬((x.branchId == k) = true ∧ (rest.any (fun k' => x.branchId == k')) = true) := by
      intro x hx hand
      obtain ⟨h1, h2⟩ := hand
      rw [beq_iff_eq] at h1
      simp only [List.any_eq_true] at h2
      obtain ⟨k', hk', heq⟩ := h2
      rw [beq_iff_eq, h1] at heq
      exact hk (by rwa [← heq] at hk')
    have hcnt := countP_or_disjoint (fun t => t.branchId == k)
      (fun t => rest.any (fun k' => t.branchId == k')) l hdisj
    rw [← hcnt]
    congr 1

/-- C5 counterexample: a session built by a single `addThought` call whose
`branchId` names no existing branch; `getSummary` reports `totalSteps = 1`
but the per-branch `stepCount` values sum to 0, so the partition equation of
the claim fails. -/
theorem summary_partition_cex :
    ((getSummary ((addThought ((getOrCreateSession initState 0 (some "s") none).2) 1
        { sessionId := some "s", thought := "alpha", branchId := some "ghost", nextThoughtNeeded := true }).2) "s").1.map
      (fun su => (su.totalSteps, (su.branches.map (fun b => b.stepCount)).sum))) = some (1, 0) ∧
    (1 : Nat) ≠ 0 :=
  ⟨rfl, by decide⟩

/-- C5 (amended): for every session in a reachable state, `getSummary`
reports `totalSteps` equal to the session's thought count (= the number N of
appends that built it) and one branch summary per branch (length B); the sum
of the per-branch `stepCount` values equals the number of thoughts whose
`branchId` is the id of an existing branch — which equals N exactly when
every append landed on an existing branch, i.e. when no `addThought` call
supplied an unknown `branchId`. -/
theorem getSummary_partition (st : ManagerState) (c : Nat) (sid : String)
    (s : ThinkingSession) (h : Reachable st c) (hfound : findSession st sid = some s) :
    ∃ summ, (getSummary st sid).1 = some summ ∧
      summ.totalSteps = s.thoughts.length ∧
      summ.branches.length = s.branches.length ∧
      (summ.branches.map (fun b => b.stepCount)).sum =
        (s.thoughts.filter (fun t => s.branches.any (fun b => t.branchId == b.id))).length ∧
      ((∀ t ∈ s.thoughts, s.branches.any (fun b => t.branchId == b.id) = true) →
        (summ.branches.map (fun b => b.stepCount)).sum = s.thoughts.length) := by
  have hinv := reachable_inv st c h
  obtain ⟨q0, hq0, hq0v⟩ := findPairs_mem st.sessions sid s hfound
  have hq := hinv q0 hq0
  rw [hq0v] at hq
  have hnd : (s.branches.map (fun b => b.id)).Nodup := hq.2.1
  have hsum : ((s.branches.map (fun branch =>
      (s.thoughts.filter (fun t => t.branchId == branch.id)).length)).sum) =
      (s.thoughts.filter (fun t => s.branches.any (fun b => t.branchId == b.id))).length := by
    have hmm : (s.branches.map (fun branch =>
        (s.thoughts.filter (fun t => t.branchId == branch.id)).length)) =
        ((s.branches.map (fun b => b.id)).map (fun k =>
          (s.thoughts.filter (fun t => t.branchId == k)).length)) := by
      rw [List.map_map]
      rfl
    have hone : ∀ (l : List ThinkingBranch) (x : String),
        ((l.map (fun b => b.id)).any (fun k => x == k)) = (l.any (fun b => x == b.id)) := by
      intro l x
      induction l with
      | nil => rfl
      | cons b rest ih => simp only [List.map_cons, List.any_cons, ih]
    have hpred : (fun t : ThoughtStep =>
        (s.branches.map (fun b => b.id)).any (fun k => t.branchId == k)) =
        (fun t : ThoughtStep => s.branches.any (fun b => t.branchId == b.id)) :=
      funext fun t => hone s.branches t.branchId
    rw [hmm, sum_branch_counts _ _ hnd, hpred]
  rcases hopt : (getSummary st sid).1 with _ | summ
  · simp only [getSummary, hfound] at hopt
    cases hopt
  · simp only [getSummary, hfound, Option.some.injEq] at hopt
    subst hopt
    refine ⟨_, rfl, rfl, by simp, ?_, ?_⟩
    · simpa [List.map_map] using hsum
    · intro hall
      have hfil : s.thoughts.filter (fun t => s.branches.any (fun b => t.branchId == b.id)) = s.thoughts :=
        List.filter_eq_self.mpr hall
      have hsum' := hsum
      rw [hfil] at hsum'
      simpa [List.map_map] using hsum'

/-- Witness for C5's amended theorem at a concrete reachable one-thought
session: the summary exists and reports one total step. -/
theorem getSummary_partition_witness :
    ∃ summ, (getSummary (applyOp initState 0 (EngineOp.add
        { sessionId := some "s", thought := "one", nextThoughtNeeded := true })) "s").1 = some summ ∧
      summ.totalSteps = 1 := by
  obtain ⟨summ, h1, h2, -, -, -⟩ := getSummary_partition
    (applyOp initState 0 (EngineOp.add
      { sessionId := some "s", thought := "one", nextThoughtNeeded := true })) 0 "s" _
    (Reachable.step initState 0 0 _ Reachable.init (Nat.le_refl 0)) rfl
  refine ⟨summ, h1, ?_⟩
  rw [h2]
  rfl

/-! ## Claim C10: addThought ignores the session status -/

/-- C10: `addThought` never inspects the session's status: appending to a
session whose status was overwritten with any value σ (active, paused,
completed or abandoned) succeeds and produces exactly the same mutation —
same appended thought, same counter, same stored session up to that status
field — and the same result bundle except that the `hasMoreThoughts` flag of
the progress snapshot is computed from σ; in particular a completed session
still accepts new thoughts. -/
theorem addThought_status_independent (st stσ : ManagerState) (now : Nat)
    (i : AddThoughtInput) (sid : String) (s : ThinkingSession) (σ : SessionStatus)
    (hsid : i.sessionId = some sid) (hne : sid ≠ "")
    (hfound : findSession st sid = some s)
    (hstσ : stσ = { st with sessions := setPairs sid { s with status := σ } st.sessions }) :
    (addThought stσ now i).2.counter = (addThought st now i).2.counter ∧
    ∃ s', findSession (addThought st now i).2 sid = some s' ∧
      (addThought st now i).2.sessions = setPairs sid s' st.sessions ∧
      (addThought stσ now i).2.sessions = setPairs sid { s' with status := σ } st.sessions ∧
      (addThought stσ now i).1 = { (addThought st now i).1 with
        progress := { (addThought st now i).1.progress with
          hasMoreThoughts := (((s'.thoughts.filter (fun t => t.thoughtType == ThoughtType.conclusion)).length == 0)
            || (σ == SessionStatus.active)) } } := by
  subst hstσ
  have hfσ : findSession { st with sessions := setPairs sid { s with status := σ } st.sessions } sid
      = some { s with status := σ } := by
    show findPairs (setPairs sid { s with status := σ } st.sessions) sid = some { s with status := σ }
    exact findPairs_setPairs_self _ _ _
  have hG := getOrCreate_found st now sid (some i.thought) s hne hfound
  have hGσ := getOrCreate_found _ now sid (some i.thought) _ hne hfσ
  have hfind : ∀ (s' : ThinkingSession) (c : Nat),
      findSession { sessions := setPairs sid s' st.sessions, counter := c } sid = some s' := by
    intro s' c
    simp [findSession, findPairs_setPairs_self]
  have hneg : ∀ T : ThoughtStep, ¬ (s.thoughts = [] ∧ s.problem = "") →
      ¬ ((s.thoughts ++ [T]).length = 1 ∧ s.problem = "") := by
    intro T hc hand
    have hlen : s.thoughts.length = 0 := by
      have h1 := hand.1
      simp only [List.length_append, List.length_cons, List.length_nil] at h1
      omega
    exact hc ⟨List.eq_nil_of_length_eq_zero hlen, hand.2⟩
  rcases hnb : i.newBranchName with _ | nm
  · by_cases hc : s.thoughts = [] ∧ s.problem = ""
    · simp only [addThought, hsid, hG, hGσ, hnb, getProgress, generateQuickSummary]
      rw [if_pos (by simp [hc.1, hc.2]), if_pos (by simp [hc.1, hc.2])]
      refine ⟨by trivial, _, hfind _ _, rfl, ?_, ?_⟩
      · rw [setPairs_setPairs]
      · rfl
    · simp only [addThought, hsid, hG, hGσ, hnb, getProgress, generateQuickSummary]
      rw [if_neg (hneg _ hc), if_neg (hneg _ hc)]
      refine ⟨by trivial, _, hfind _ _, rfl, ?_, ?_⟩
      · rw [setPairs_setPairs]
      · rfl
  · by_cases hnm : nm = ""
    · subst hnm
      by_cases hc : s.thoughts = [] ∧ s.problem = ""
      · simp only [addThought, hsid, hG, hGσ, hnb, getProgress, generateQuickSummary, reduceIte]
        rw [if_pos (by simp [hc.1, hc.2]), if_pos (by simp [hc.1, hc.2])]
        refine ⟨by trivial, _, hfind _ _, rfl, ?_, ?_⟩
        · rw [setPairs_setPairs]
        · rfl
      · simp only [addThought, hsid, hG, hGσ, hnb, getProgress, generateQuickSummary, reduceIte]
        rw [if_neg (hneg _ hc), if_neg (hneg _ hc)]
        refine ⟨by trivial, _, hfind _ _, rfl, ?_, ?_⟩
        · rw [setPairs_setPairs]
        · rfl
    · by_cases hc : s.thoughts = [] ∧ s.problem = ""
      · simp only [addThought, hsid, hG, hGσ, hnb, createBranch, getProgress, generateQuickSummary]
        rw [if_neg hnm, if_neg hnm]
        rw [if_pos (by simp [hc.1, hc.2]), if_pos (by simp [hc.1, hc.2])]
        refine ⟨by trivial, _, hfind _ _, rfl, ?_, ?_⟩
        · rw [setPairs_setPairs]
        · rfl
      · simp only [addThought, hsid, hG, hGσ, hnb, createBranch, getProgress, generateQuickSummary]
        rw [if_neg hnm, if_neg hnm]
        rw [if_neg (hneg _ hc), if_neg (hneg _ hc)]
        refine ⟨by trivial, _, hfind _ _, rfl, ?_, ?_⟩
        · rw [setPairs_setPairs]
        · rfl

/-- Witness for C10: overwriting a fresh session's status with `completed`
does not change what a subsequent `addThought` does to the uuid counter
(the call still appends normally). -/
theorem addThought_status_independent_witness :
    (addThought { (getOrCreateSession initState 0 (some "s") none).2 with
        sessions := setPairs "s"
          { (getOrCreateSession initState 0 (some "s") none).1.1 with status := SessionStatus.completed }
          ((getOrCreateSession initState 0 (some "s") none).2).sessions } 1
      { sessionId := some "s", thought := "one", nextThoughtNeeded := true }).2.counter =
    (addThought ((getOrCreateSession initState 0 (some "s") none).2) 1
      { sessionId := some "s", thought := "one", nextThoughtNeeded := true }).2.counter :=
  (addThought_status_independent ((getOrCreateSession initState 0 (some "s") none).2)
    { (getOrCreateSession initState 0 (some "s") none).2 with
        sessions := setPairs "s"
          { (getOrCreateSession initState 0 (some "s") none).1.1 with status := SessionStatus.completed }
          ((getOrCreateSession initState 0 (some "s") none).2).sessions }
    1 { sessionId := some "s", thought := "one", nextThoughtNeeded := true } "s"
    ((getOrCreateSession initState 0 (some "s") none).1.1) SessionStatus.completed
    rfl (by decide) rfl rfl).1
